import Mathlib

/-!
Verification of the vulnerability-collection scripts.

This file gives a shallow embedding, in Lean 4, of the core data
transformations of the `Scripts/` Python code base (diff parsing,
range-overlap testing, JSON container serialization, timeline
construction and its consecutive-commit correction, code-unit
marking, and the C++ scope-qualifier rewrite), together with
theorems settling the frozen specification claims about them.
Each definition is translated from the corresponding Python source;
external collaborators (git subprocesses, the JSON library, the
clang parser) are represented by explicit function parameters or by
faithful executable models, as documented on each definition.
-/

namespace VulnScripts


/-- Embedding of `check_range_overlap` from `Scripts/modules/common.py`.
A range is a pair of integers (begin, end).  A malformed range whose
first component exceeds its second is logged by the script and treated
as non-overlapping; otherwise the test is `begin₁ ≤ end₂ ∧ begin₂ ≤ end₁`. -/
def check_range_overlap (range_1 range_2 : Int × Int) : Bool :=
  if range_1.1 > range_1.2 then false
  else if range_2.1 > range_2.2 then false
  else decide (range_1.1 ≤ range_2.2 ∧ range_2.1 ≤ range_1.2)

/-- Embedding of `lists_have_elements_in_common` from `Scripts/modules/common.py`:
the Python code checks that the set intersection of the two lists is
non-empty, which is equivalent to some element of the first list occurring
in the second. -/
def lists_have_elements_in_common {α : Type} [DecidableEq α] (a b : List α) : Bool :=
  a.any (fun x => b.contains x)

/-- Embedding of `Project.sort_git_commit_hashes_topologically` from
`Scripts/modules/project.py`.  The `git rev-list` subprocess is external
to the script, so it is passed in as a function returning either the
sorted hash list or a git error; `repository_loaded` models the
`self.repository is None` check. -/
def sort_git_commit_hashes_topologically
    (rev_list : List String → Except String (List String))
    (repository_loaded : Bool) (hash_list : List String) : List String :=
  if repository_loaded = false then []
  else if hash_list.length ≤ 1 then hash_list
  else
    match rev_list hash_list with
    | Except.ok sorted => sorted
    | Except.error _ => []

/-- One checkpoint of the timeline built by `Scripts/create_file_timeline.py`:
the `Commit` named tuple restricted to the fields the alternation claim is
about (the running topological index, the vulnerable flag and the hash). -/
structure Checkpoint where
  topologicalIndex : Nat
  vulnerable : Bool
  commitHash : String
deriving DecidableEq, Repr

/-- Embedding of the loop over `zip(vulnerable_commit_list, neutral_commit_list)`
in `Scripts/create_file_timeline.py`: for every (vulnerable, neutral) commit
pair a vulnerable checkpoint followed by a neutral checkpoint is appended,
each receiving the next running topological index. -/
def create_commit_pairs_aux (idx : Nat) : List (String × String) → List Checkpoint
  | [] => []
  | (v, n) :: rest =>
      ⟨idx, true, v⟩ :: ⟨idx + 1, false, n⟩ :: create_commit_pairs_aux (idx + 2) rest

/-- Embedding of the checkpoint-sequence construction in
`Scripts/create_file_timeline.py`: checkpoint 0 is the project's first
commit flagged not vulnerable, followed by the checkpoints of every
(vulnerable, neutral) pair. -/
def create_commit_list (first_commit : String) (pairs : List (String × String)) :
    List Checkpoint :=
  ⟨0, false, first_commit⟩ :: create_commit_pairs_aux 1 pairs

/-- A code unit as handled by the marking loop of
`checkout_affected_files_and_find_code_units` in
`Scripts/find_affected_files.py`: a name, a line span, and the
`Vulnerable` field which is absent until the loop sets it to
`"Yes"` or `"No"`. -/
structure FileCodeUnit where
  name : String
  lines : Int × Int
  vulnerable : Option String
deriving DecidableEq, Repr

/-- Embedding of one iteration of the unit-marking loop in
`checkout_affected_files_and_find_code_units` (`Scripts/find_affected_files.py`):
`was_unit_changed = is_commit_vulnerable and any(check_range_overlap(unit['Lines'], r) ...)`,
then `unit['Vulnerable'] = 'Yes' if was_unit_changed else 'No'`. -/
def mark_code_unit (is_commit_vulnerable : Bool) (changed_lines : List (Int × Int))
    (unit : FileCodeUnit) : FileCodeUnit :=
  let was_unit_changed :=
    is_commit_vulnerable && changed_lines.any (fun r => check_range_overlap unit.lines r)
  { unit with vulnerable := some (if was_unit_changed then "Yes" else "No") }

/-- Embedding of the whole marking loop: every unit of
`function_list + class_list` is updated in place. -/
def mark_code_units (is_commit_vulnerable : Bool) (changed_lines : List (Int × Int))
    (units : List FileCodeUnit) : List FileCodeUnit :=
  units.map (mark_code_unit is_commit_vulnerable changed_lines)

/-- Characters that Python's `str.splitlines` treats as line boundaries
(with the pair carriage return + line feed handled as a single boundary). -/
def isPythonLineBoundary (c : Char) : Bool :=
  List.contains
    ['\n', '\r', '\x0b', '\x0c', '\x1c', '\x1d', '\x1e', '\x85', '\u2028', '\u2029'] c

/-- Accumulator-based worker for `pySplitlines`; the accumulator holds the
current line reversed. -/
def pySplitlinesAux : List Char → List Char → List (List Char)
  | acc, [] => [acc.reverse]
  | acc, '\r' :: '\n' :: rest =>
      acc.reverse :: (if rest.isEmpty then [] else pySplitlinesAux [] rest)
  | acc, c :: rest =>
      if isPythonLineBoundary c then
        acc.reverse :: (if rest.isEmpty then [] else pySplitlinesAux [] rest)
      else pySplitlinesAux (c :: acc) rest

/-- Model of Python's `str.splitlines` used by
`find_changed_source_files_and_lines_between_git_commits`:
splits at line boundaries, producing no trailing empty line. -/
def pySplitlines (l : List Char) : List (List Char) :=
  if l.isEmpty then [] else pySplitlinesAux [] l

/-- Model of `line.split('/', 1)[1]`: the part of the line after its first
forward slash, or `none` when the line has no slash (in which case the
Python tuple unpacking raises a `ValueError`). -/
def splitAfterFirstSlash : List Char → Option (List Char)
  | [] => none
  | '/' :: rest => some rest
  | _ :: rest => splitAfterFirstSlash rest

/-- Numeric value of a list of decimal digit characters, as `int()` computes
it for the regex groups (leading zeros allowed). -/
def digitsToNat (ds : List Char) : Nat :=
  ds.foldl (fun acc c => acc * 10 + (c.toNat - '0'.toNat)) 0

/-- Parses one side of a hunk header: one or more digits, optionally followed
by a comma and one or more digits, mirroring the regex fragment
`(\d+)(,(\d+))?` of `ScrapingRegex.GIT_DIFF_LINE_NUMBERS`
(`Scripts/modules/scraping.py`). -/
def parseHunkNumber (l : List Char) : Option (Nat × Option Nat × List Char) :=
  let p := l.span Char.isDigit
  if p.1.isEmpty then none
  else
    match p.2 with
    | ',' :: rest2 =>
        let q := rest2.span Char.isDigit
        if q.1.isEmpty then none
        else some (digitsToNat p.1, some (digitsToNat q.1), q.2)
    | rest => some (digitsToNat p.1, none, rest)

/-- Model of matching `ScrapingRegex.GIT_DIFF_LINE_NUMBERS`
(`^@@ -(\d+)(,(\d+))? \+(\d+)(,(\d+))? @@.*`) against a diff line,
returning the four captured numeric groups on success. -/
def parseHunkHeader (l : List Char) : Option (Nat × Option Nat × Nat × Option Nat) :=
  match l with
  | '@' :: '@' :: ' ' :: '-' :: rest =>
    match parseHunkNumber rest with
    | none => none
    | some (fb, ft, rest1) =>
      match rest1 with
      | ' ' :: '+' :: rest2 =>
        match parseHunkNumber rest2 with
        | none => none
        | some (tb, tt, rest3) =>
          match rest3 with
          | ' ' :: '@' :: '@' :: _ => some (fb, ft, tb, tt)
          | _ => none
      | _ => none
  | _ => none

/-- Embedding of the inner `append_line_numbers` helper of
`find_changed_source_files_and_lines_between_git_commits`
(`Scripts/modules/project.py`): a side whose parsed begin is 0 records
nothing; otherwise the range `[begin, begin + max(total - 1, 0)]` is
appended (the total defaults to 1 when the regex group is absent). -/
def append_line_numbers (line_list : List (Nat × Nat)) (line_begin : Nat)
    (total : Option Nat) : List (Nat × Nat) :=
  if line_begin = 0 then line_list
  else
    let total_lines := total.getD 1
    line_list ++ [(line_begin, line_begin + (total_lines - 1))]

/-- One triple yielded by the diff parser: a file path and its from-side and
to-side changed line ranges. -/
structure DiffFileChanges where
  path : List Char
  fromRanges : List (Nat × Nat)
  toRanges : List (Nat × Nat)
deriving DecidableEq, Repr

/-- Embedding of the inner `yield_last_file_if_it_exists` helper: the
accumulated file section is emitted only when a file path is active. -/
def flushLastFile : Option (List Char) → List (Nat × Nat) → List (Nat × Nat) →
    List DiffFileChanges
  | none, _, _ => []
  | some p, fr, tr => [⟨p, fr, tr⟩]

/-- The characters of the new-file marker `+++ `. -/
def plusPlusPlusSpace : List Char := ['+', '+', '+', ' ']

/-- The characters of the hunk marker `@@`. -/
def atAtChars : List Char := ['@', '@']

/-- The characters of the deleted-file path `dev/null`. -/
def devNullChars : List Char := "dev/null".toList

/-- Embedding of the line loop of
`find_changed_source_files_and_lines_between_git_commits`
(`Scripts/modules/project.py`).  The state is the active file path (if any)
and its accumulated from/to range lists.  The returned flag is `false` when
the Python code would raise a `ValueError` on a `+++ ` line without a slash;
the triples yielded before that point are still returned. -/
def diffLinesLoop :
    Option (List Char) → List (Nat × Nat) → List (Nat × Nat) → List (List Char) →
    List DiffFileChanges × Bool
  | cur, fr, tr, [] => (flushLastFile cur fr tr, true)
  | cur, fr, tr, line :: rest =>
    if plusPlusPlusSpace.isPrefixOf line then
      let flushed := flushLastFile cur fr tr
      match splitAfterFirstSlash line with
      | none => (flushed, false)
      | some after =>
        let cur2 := if after = devNullChars then none else some after
        let result := diffLinesLoop cur2 [] [] rest
        (flushed ++ result.1, result.2)
    else if cur.isSome && atAtChars.isPrefixOf line then
      match parseHunkHeader line with
      | some (fb, ft, tb, tt) =>
          diffLinesLoop cur (append_line_numbers fr fb ft)
            (append_line_numbers tr tb tt) rest
      | none => diffLinesLoop cur fr tr rest
    else diffLinesLoop cur fr tr rest

/-- Embedding of the diff-parsing core of
`find_changed_source_files_and_lines_between_git_commits`: the `git diff`
subprocess is external, so the function takes the diff text it produced and
yields the per-file changed-range triples. -/
def find_changed_source_files_and_lines (diff_result : List Char) :
    List DiffFileChanges × Bool :=
  diffLinesLoop none [] [] (pySplitlines diff_result)

/-- A changed-line range list is well-formed when every range [b, e] in it
satisfies 1 ≤ b ≤ e. -/
def rangesWellFormed (rs : List (Nat × Nat)) : Prop :=
  ∀ r ∈ rs, 1 ≤ r.1 ∧ r.1 ≤ r.2

/-- The concrete diff text of claim C1: one changed source file with the hunk
header at issue. -/
def c1DiffText : List Char :=
  "+++ b/nsPrompt.cpp\n@@ -424,20 +420,0 @@ MakeDialogText\n".toList

/-- One row of the timeline table as the consecutive-commit correction of
`Scripts/create_file_timeline.py` sees it.  The `Vulnerable` column's
`Yes`/`No` strings are modelled as a Bool and the `CVEs` JSON cell as the
list it deserializes to; the remaining columns play no role in the
correction. -/
structure TimelineRow where
  filePath : String
  topologicalIndex : Nat
  vulnerable : Bool
  commitHash : String
  cves : List String
deriving DecidableEq, Repr

/-- Embedding of the flip mask
`(timeline['Commit Hash'] == timeline['Next Commit Hash']) & (timeline['Vulnerable'] != timeline['Next Vulnerable'])`:
entry i is true when row i and row i+1 share a commit hash with opposite
vulnerable flags (the last row, whose shifted neighbour is missing, is
false). -/
def flipMask : List TimelineRow → List Bool
  | [] => []
  | [_] => [false]
  | a :: b :: rest =>
      (a.commitHash == b.commitHash && a.vulnerable != b.vulnerable) :: flipMask (b :: rest)

/-- Embedding of `is_consecutive_commit |= is_consecutive_commit.shift(1)`:
each entry is or-ed with its predecessor (the first entry's predecessor is
missing, hence false). -/
def orWithShifted (mask : List Bool) : List Bool :=
  List.zipWith (fun m p => m || p) mask (false :: mask)

/-- Embedding of the boolean-mask row selection `timeline[is_consecutive_commit]`. -/
def selectByMask : List TimelineRow → List Bool → List TimelineRow
  | [], _ => []
  | _ :: _, [] => []
  | r :: rs, m :: ms => if m then r :: selectByMask rs ms else selectByMask rs ms

/-- Embedding of `zip(consecutive_commits, consecutive_commits)` over the
selected rows: consecutive rows are paired two at a time (a trailing
unpaired row is discarded, as the exhausted iterator would be). -/
def pairUpRows : List TimelineRow → List (TimelineRow × TimelineRow)
  | a :: b :: rest => (a, b) :: pairUpRows rest
  | _ => []

/-- Embedding of the flip-pair computation of the consecutive-commit
correction in `Scripts/create_file_timeline.py`: the adjacent row pairs
that share a commit hash with opposite vulnerable flags, in timeline
order.  The first component of each pair is the row the Python code names
`neutral_row` and the second the row it names `vulnerable_row`. -/
def consecutive_commits (rows : List TimelineRow) : List (TimelineRow × TimelineRow) :=
  pairUpRows (selectByMask rows (orWithShifted (flipMask rows)))

/-- The file paths of the timeline rows carrying a given topological index
(the series `timeline.loc[timeline['Topological Index'] == idx, 'File Path']`). -/
def filesAtIndex (rows : List TimelineRow) (idx : Nat) : List String :=
  (rows.filter (fun r => r.topologicalIndex == idx)).map (fun r => r.filePath)

/-- Embedding of one iteration of the correction loop: when the two rows'
CVE lists intersect, every row carrying the first row's topological index
whose file path also appears at the second row's topological index is
dropped from the timeline; otherwise the timeline is unchanged. -/
def correctionStep (rows : List TimelineRow) (p : TimelineRow × TimelineRow) :
    List TimelineRow :=
  if lists_have_elements_in_common p.1.cves p.2.cves then
    let vulnerable_files := filesAtIndex rows p.2.topologicalIndex
    rows.filter
      (fun r => !(r.topologicalIndex == p.1.topologicalIndex &&
                  vulnerable_files.contains r.filePath))
  else rows

/-- Embedding of the whole consecutive-commit correction pass: the flip
pairs are computed once from the (deduplicated) timeline and the drops are
applied to the evolving timeline in order. -/
def consecutive_commits_correction (rows : List TimelineRow) : List TimelineRow :=
  (consecutive_commits rows).foldl correctionStep rows

/-- The vulnerable-labeled row of the C2 counterexample timeline. -/
def c2RowVuln : TimelineRow := ⟨"f", 0, true, "h", ["CVE-1"]⟩

/-- The neutral-labeled row of the C2 counterexample timeline. -/
def c2RowNeutral : TimelineRow := ⟨"f", 1, false, "h", ["CVE-1"]⟩

/-- The neutral-labeled row (first in timeline order) of the C2 witness
timeline. -/
def c2WitnessNeutral : TimelineRow := ⟨"f", 2, false, "h", ["CVE-1"]⟩

/-- The vulnerable-labeled row (second in timeline order) of the C2 witness
timeline. -/
def c2WitnessVuln : TimelineRow := ⟨"f", 3, true, "h", ["CVE-1"]⟩

/-- The whitespace class of Python's `str` regular expressions: the
characters matched by `\s` (ASCII whitespace, the file/group/record
separators, and the Unicode space characters); `\S` matches exactly the
complement. -/
def pyIsSpace (c : Char) : Bool :=
  c == ' ' || c == '\t' || c == '\n' || c == '\r' || c == '\x0b' || c == '\x0c' ||
  c == '\x1c' || c == '\x1d' || c == '\x1e' || c == '\x1f' ||
  c == '\x85' || c == '\xa0' || c == ' ' ||
  (0x2000 ≤ c.toNat && c.toNat ≤ 0x200a) ||
  c == '\u2028' || c == '\u2029' || c == '\u202f' || c == '\u205f' || c == '\u3000'

/-- The largest index j ≥ 1 at which the character run contains `::` with
both colons inside the run; this is where the greedy `\S+` of the pattern
`\S+::` ends up after backtracking. -/
def lastDoubleColonIndex (run : List Char) : Option Nat :=
  (List.range run.length).foldl
    (fun acc j =>
      if 1 ≤ j ∧ run[j]? = some ':' ∧ run[j + 1]? = some ':' then some j else acc)
    none

/-- Length of the match of `\S+::` at the head of the input, if one starts
there: the longest non-whitespace prefix of length ≥ 1 that is immediately
followed by `::` (the two colons included in the match). -/
def qualifierMatchLength (l : List Char) : Option Nat :=
  (lastDoubleColonIndex (l.takeWhile (fun c => !pyIsSpace c))).map (fun j => j + 2)

/-- Regex-substitution scanner, parameterized by the function giving the
match length at the current position: scan left to right, deleting each
match and continuing after it, keeping every non-matching character.  The
fuel argument bounds the remaining scan steps; each step consumes at least
one character, so the fuel never runs out when it starts at the input
length (the fuel-exhausted case is then unreachable). -/
def stripSubAux (f : List Char → Option Nat) : Nat → List Char → List Char
  | 0, l => l
  | fuel + 1, l =>
    match l with
    | [] => []
    | c :: rest =>
      match f (c :: rest) with
      | some m => stripSubAux f fuel (rest.drop (m - 1))
      | none => c :: stripSubAux f fuel rest

/-- Embedding of `re.sub(r'\S+::', '', source_contents)` in
`find_code_units_in_file` (`Scripts/modules/project.py`). -/
def strip_scope_qualifiers (l : List Char) : List Char :=
  stripSubAux qualifierMatchLength l.length l

/-- The number of lines of a source file whose line terminator is the
newline character: one more than the number of newlines. -/
def numLinesByNewlines (l : List Char) : Nat := l.count '\n' + 1

/-- Model of the JSON values handled by the Python `json` module as the
scripts use it: null, booleans, arbitrary-precision integers, strings,
arrays and objects (an object is its ordered key/value pair list).  Floats
do not occur in the serialized containers and are not modelled. -/
inductive Json where
  | null : Json
  | bool (b : Bool) : Json
  | int (n : Int) : Json
  | str (s : List Char) : Json
  | arr (xs : List Json) : Json
  | obj (kvs : List (List Char × Json)) : Json
deriving Repr

/-- The decimal digit character for a value below ten. -/
def digitChar (d : Nat) : Char :=
  if d = 0 then '0' else if d = 1 then '1' else if d = 2 then '2'
  else if d = 3 then '3' else if d = 4 then '4' else if d = 5 then '5'
  else if d = 6 then '6' else if d = 7 then '7' else if d = 8 then '8' else '9'

/-- Decimal digit characters of a natural number; the fuel argument bounds
the recursion depth and never runs out when it starts above the number. -/
def natDigitsAux : Nat → Nat → List Char
  | 0, _ => []
  | fuel + 1, n =>
      if n < 10 then [digitChar n]
      else natDigitsAux fuel (n / 10) ++ [digitChar (n % 10)]

/-- Decimal representation of a natural number. -/
def natToChars (n : Nat) : List Char := natDigitsAux (n + 1) n

/-- Decimal representation of an integer, as Python repr prints it. -/
def intToChars (n : Int) : List Char :=
  if n < 0 then '-' :: natToChars (-n).toNat else natToChars n.toNat

/-- The lowercase hexadecimal digit character for a value below sixteen. -/
def hexDigitChar (k : Nat) : Char :=
  if k < 10 then digitChar k
  else if k = 10 then 'a' else if k = 11 then 'b' else if k = 12 then 'c'
  else if k = 13 then 'd' else if k = 14 then 'e' else 'f'

/-- Model of the string escaping of Python's `json.dumps` for one
character: the two-character escapes for quote, backslash and the named
control characters, and the `\u00XX` form for the remaining control
characters.  Unlike `ensure_ascii`, non-ASCII characters are emitted
verbatim; this does not affect the composition of dumping and loading. -/
def escapeChar (c : Char) : List Char :=
  if c = '"' then ['\\', '"']
  else if c = '\\' then ['\\', '\\']
  else if c = '\n' then ['\\', 'n']
  else if c = '\t' then ['\\', 't']
  else if c = '\r' then ['\\', 'r']
  else if c = '\x08' then ['\\', 'b']
  else if c = '\x0c' then ['\\', 'f']
  else if c.toNat < 0x20 then
    let code := c.toNat
    '\\' :: 'u' :: '0' :: '0' :: [hexDigitChar (code / 16), hexDigitChar (code % 16)]
  else [c]

/-- Model of `json.dumps` string escaping applied to a whole string. -/
def escapeString (s : List Char) : List Char := (s.map escapeChar).flatten

/-- The characters of the JSON literal `null`. -/
def nullToken : List Char := ['n', 'u', 'l', 'l']

/-- The characters of the JSON literal `true`. -/
def trueToken : List Char := ['t', 'r', 'u', 'e']

/-- The characters of the JSON literal `false`. -/
def falseToken : List Char := ['f', 'a', 'l', 's', 'e']

mutual

/-- Model of Python's `json.dumps` with its default separators (a comma
and a space between items, a colon and a space after a key). -/
def jsonDumps : Json → List Char
  | .null => nullToken
  | .bool true => trueToken
  | .bool false => falseToken
  | .int n => intToChars n
  | .str s => '"' :: escapeString s ++ ['"']
  | .arr [] => ['[', ']']
  | .arr (x :: xs) => '[' :: dumpsElems (x :: xs) ++ [']']
  | .obj [] => ['\x7b', '\x7d']
  | .obj (kv :: kvs) => '\x7b' :: dumpsMembers (kv :: kvs) ++ ['\x7d']

def dumpsElems : List Json → List Char
  | [] => []
  | [x] => jsonDumps x
  | x :: y :: rest => jsonDumps x ++ ',' :: ' ' :: dumpsElems (y :: rest)

def dumpsMembers : List (List Char × Json) → List Char
  | [] => []
  | [(k, v)] => '"' :: escapeString k ++ '"' :: ':' :: ' ' :: jsonDumps v
  | (k, v) :: m :: rest =>
      ('"' :: escapeString k ++ '"' :: ':' :: ' ' :: jsonDumps v) ++
        ',' :: ' ' :: dumpsMembers (m :: rest)

end

/-- The value of a hexadecimal digit character, if it is one. -/
def hexVal (c : Char) : Option Nat :=
  if '0' ≤ c ∧ c ≤ '9' then some (c.toNat - '0'.toNat)
  else if 'a' ≤ c ∧ c ≤ 'f' then some (c.toNat - 'a'.toNat + 10)
  else if 'A' ≤ c ∧ c ≤ 'F' then some (c.toNat - 'A'.toNat + 10)
  else none

/-- Decodes the four hex digits of a `\uXXXX` escape and continues with
the given string-body continuation. -/
def parseUnicodeEscape (k : List Char → Option (List Char × List Char)) :
    List Char → Option (List Char × List Char)
  | h1 :: h2 :: h3 :: h4 :: r2 =>
      (hexVal h1).bind fun a =>
        (hexVal h2).bind fun b =>
          (hexVal h3).bind fun c2 =>
            (hexVal h4).bind fun d =>
              (k r2).map
                (fun p => (Char.ofNat (((a * 16 + b) * 16 + c2) * 16 + d) :: p.1, p.2))
  | _ => none

/-- Decodes one backslash escape of a JSON string body and continues with
the given string-body continuation. -/
def parseEscapeToken (k : List Char → Option (List Char × List Char)) :
    List Char → Option (List Char × List Char)
  | [] => none
  | e :: r =>
      if e = '"' then (k r).map (fun p => ('"' :: p.1, p.2))
      else if e = '\\' then (k r).map (fun p => ('\\' :: p.1, p.2))
      else if e = '/' then (k r).map (fun p => ('/' :: p.1, p.2))
      else if e = 'n' then (k r).map (fun p => ('\n' :: p.1, p.2))
      else if e = 't' then (k r).map (fun p => ('\t' :: p.1, p.2))
      else if e = 'r' then (k r).map (fun p => ('\r' :: p.1, p.2))
      else if e = 'b' then (k r).map (fun p => ('\x08' :: p.1, p.2))
      else if e = 'f' then (k r).map (fun p => ('\x0c' :: p.1, p.2))
      else if e = 'u' then parseUnicodeEscape k r
      else none

/-- Parses a JSON string body (after the opening quote) up to and including
the closing quote, returning the decoded characters and the remaining
input.  The fuel argument bounds the recursion depth; every step consumes
at least one character, so starting it at the input length suffices. -/
def parseStringBodyAux : Nat → List Char → Option (List Char × List Char)
  | 0, _ => none
  | _ + 1, [] => none
  | fuel + 1, c :: rest =>
      if c = '"' then some ([], rest)
      else if c = '\\' then parseEscapeToken (fun l2 => parseStringBodyAux fuel l2) rest
      else (parseStringBodyAux fuel rest).map (fun p => (c :: p.1, p.2))

/-- Parses a JSON string body with sufficient fuel. -/
def parseStringBody (l : List Char) : Option (List Char × List Char) :=
  parseStringBodyAux l.length l

/-- Tests whether a character list starts with the given character. -/
def headIs (c : Char) : List Char → Bool
  | [] => false
  | d :: _ => d == c

/-- Splits a character list into its longest digit prefix and the rest. -/
def spanDigits (l : List Char) : List Char × List Char :=
  (l.takeWhile Char.isDigit, l.dropWhile Char.isDigit)

/-- Parses an optionally negated decimal integer token, as `json.loads`
reads the numbers produced by dumping the (float-free) containers of the
scripts. -/
def parseIntToken (l : List Char) : Option (Int × List Char) :=
  if headIs '-' l then
    let p := spanDigits l.tail
    if p.1.isEmpty then none else some (-(digitsToNat p.1 : Int), p.2)
  else
    let p := spanDigits l
    if p.1.isEmpty then none else some ((digitsToNat p.1 : Int), p.2)

mutual

/-- Model of Python's `json.loads` on the texts produced by `jsonDumps`:
a recursive-descent parser for values, array elements and object members,
with the fixed separators the serializer emits.  The fuel argument bounds
the nesting depth; parsing fails by returning `none`, as `json.loads`
fails by raising. -/
def parseValue : Nat → List Char → Option (Json × List Char)
  | 0, _ => none
  | fuel + 1, l =>
      if nullToken.isPrefixOf l then some (.null, l.drop 4)
      else if trueToken.isPrefixOf l then some (.bool true, l.drop 4)
      else if falseToken.isPrefixOf l then some (.bool false, l.drop 5)
      else if headIs '"' l then (parseStringBody l.tail).map (fun p => (.str p.1, p.2))
      else if headIs '[' l then
        (if headIs ']' l.tail then some (.arr [], l.tail.tail)
         else (parseElems fuel l.tail).map (fun p => (.arr p.1, p.2)))
      else if headIs '\x7b' l then
        (if headIs '\x7d' l.tail then some (.obj [], l.tail.tail)
         else (parseMembers fuel l.tail).map (fun p => (.obj p.1, p.2)))
      else (parseIntToken l).map (fun p => (.int p.1, p.2))

def parseElems : Nat → List Char → Option (List Json × List Char)
  | 0, _ => none
  | fuel + 1, l =>
      match parseValue fuel l with
      | none => none
      | some (v, rest) =>
          if [',', ' '].isPrefixOf rest then
            (parseElems fuel (rest.drop 2)).map (fun p => (v :: p.1, p.2))
          else if headIs ']' rest then some ([v], rest.tail)
          else none

def parseMembers : Nat → List Char → Option (List (List Char × Json) × List Char)
  | 0, _ => none
  | fuel + 1, l =>
      if headIs '"' l then
        match parseStringBody l.tail with
        | none => none
        | some (k, rest1) =>
            if [':', ' '].isPrefixOf rest1 then
              match parseValue fuel (rest1.drop 2) with
              | none => none
              | some (v, rest3) =>
                  if [',', ' '].isPrefixOf rest3 then
                    (parseMembers fuel (rest3.drop 2)).map (fun p => ((k, v) :: p.1, p.2))
                  else if headIs '\x7d' rest3 then some ([(k, v)], rest3.tail)
                  else none
            else none
      else none

end

/-- Model of Python's `json.loads`: parses one value and requires the
whole input to be consumed. -/
def jsonLoads (l : List Char) : Option Json :=
  match parseValue (l.length + 1) l with
  | some (v, []) => some v
  | _ => none

mutual

/-- Fuel sufficient for `parseValue` to parse the dump of a value,
together with its element-list and member-list versions. -/
def jsonFuel : Json → Nat
  | .arr xs => 1 + jsonFuelElems xs
  | .obj kvs => 1 + jsonFuelMembers kvs
  | _ => 1

def jsonFuelElems : List Json → Nat
  | [] => 0
  | x :: t => 1 + jsonFuel x + jsonFuelElems t

def jsonFuelMembers : List (List Char × Json) → Nat
  | [] => 0
  | (_, v) :: t => 1 + jsonFuel v + jsonFuelMembers t

end

/-- Tests that a character list does not start with a decimal digit (so a
preceding number token cannot absorb its head). -/
def headNotDigit : List Char → Bool
  | [] => true
  | c :: _ => !c.isDigit

/-- A value round-trips when parsing its dump followed by any non-digit
remainder returns the value and the remainder, for every sufficient fuel. -/
def ParsesBack (v : Json) : Prop :=
  ∀ (fuel : Nat) (rest : List Char), jsonFuel v ≤ fuel → headNotDigit rest = true →
    parseValue fuel (jsonDumps v ++ rest) = some (v, rest)

/-- A JSON container as `serialize_json_container`
(`Scripts/modules/common.py`) receives it: a Python list or dict. -/
inductive JsonContainer where
  | list (xs : List Json) : JsonContainer
  | dict (kvs : List (List Char × Json)) : JsonContainer

/-- The JSON value of a container. -/
def containerToJson : JsonContainer → Json
  | .list xs => .arr xs
  | .dict kvs => .obj kvs

/-- Python truthiness of a list or dict: non-empty. -/
def containerTruthy : JsonContainer → Bool
  | .list xs => !xs.isEmpty
  | .dict kvs => !kvs.isEmpty

/-- Embedding of `serialize_json_container` from `Scripts/modules/common.py`:
`json.dumps(container) if container else None`.  A `none` result is an empty
CSV cell. -/
def serialize_json_container (container : JsonContainer) : Option (List Char) :=
  if containerTruthy container then some (jsonDumps (containerToJson container)) else none

/-- Embedding of `deserialize_json_container` from `Scripts/modules/common.py`:
`json.loads(container_str) if pd.notna(container_str) else default`.  A
missing (NaN) cell is `none`; a `json.loads` failure, which raises in
Python, is modelled as `none`. -/
def deserialize_json_container (container_str : Option (List Char))
    (default : Option Json) : Option Json :=
  match container_str with
  | none => default
  | some l => jsonLoads l

theorem create_commit_pairs_aux_chain (pairs : List (String × String)) :
    ∀ (idx : Nat) (c : Checkpoint), c.vulnerable = false →
      List.Chain' (fun a b : Checkpoint => a.vulnerable ≠ b.vulnerable)
        (c :: create_commit_pairs_aux idx pairs) := by
  induction pairs with
  | nil =>
      intro idx c _
      simp [create_commit_pairs_aux]
  | cons p rest ih =>
      intro idx c hc
      obtain ⟨v, n⟩ := p
      simp only [create_commit_pairs_aux]
      refine List.Chain'.cons ?_ (List.Chain'.cons ?_ (ih (idx + 2) _ rfl))
      · simp [hc]
      · simp

theorem create_commit_pairs_aux_length (pairs : List (String × String)) :
    ∀ idx : Nat, (create_commit_pairs_aux idx pairs).length = 2 * pairs.length := by
  induction pairs with
  | nil => intro idx; simp [create_commit_pairs_aux]
  | cons p rest ih =>
      intro idx
      obtain ⟨v, n⟩ := p
      simp only [create_commit_pairs_aux, List.length_cons, ih (idx + 2)]
      omega

theorem append_line_numbers_wf {rs : List (Nat × Nat)} (h : rangesWellFormed rs)
    (b : Nat) (t : Option Nat) : rangesWellFormed (append_line_numbers rs b t) := by
  unfold append_line_numbers
  split
  · exact h
  · rename_i hb
    intro r hr
    rcases List.mem_append.mp hr with h1 | h1
    · exact h r h1
    · have hre : r = (b, b + (t.getD 1 - 1)) := by simpa using h1
      subst hre
      exact ⟨by omega, by omega⟩

theorem flushLastFile_wf {fr tr : List (Nat × Nat)} (hf : rangesWellFormed fr)
    (ht : rangesWellFormed tr) (cur : Option (List Char)) :
    ∀ t ∈ flushLastFile cur fr tr,
      rangesWellFormed t.fromRanges ∧ rangesWellFormed t.toRanges := by
  cases cur with
  | none => intro t ht'; simp [flushLastFile] at ht'
  | some p =>
      intro t ht'
      have hte : t = ⟨p, fr, tr⟩ := by simpa [flushLastFile] using ht'
      subst hte
      exact ⟨hf, ht⟩

theorem rangesWellFormed_nil : rangesWellFormed [] := by
  intro r hr
  simp at hr

theorem diffLinesLoop_wf (lines : List (List Char)) :
    ∀ (cur : Option (List Char)) (fr tr : List (Nat × Nat)),
      rangesWellFormed fr → rangesWellFormed tr →
      ∀ t ∈ (diffLinesLoop cur fr tr lines).1,
        rangesWellFormed t.fromRanges ∧ rangesWellFormed t.toRanges := by
  induction lines with
  | nil =>
      intro cur fr tr hf ht t hmem
      exact flushLastFile_wf hf ht cur t (by simpa [diffLinesLoop] using hmem)
  | cons line rest ih =>
      intro cur fr tr hf ht t hmem
      simp only [diffLinesLoop] at hmem
      split at hmem
      · -- new-file marker branch
        split at hmem
        · exact flushLastFile_wf hf ht cur t hmem
        · simp only at hmem
          rcases List.mem_append.mp hmem with h2 | h2
          · exact flushLastFile_wf hf ht cur t h2
          · exact ih _ [] [] rangesWellFormed_nil rangesWellFormed_nil t h2
      · split at hmem
        · -- hunk header branch
          split at hmem
          · exact ih _ _ _ (append_line_numbers_wf hf _ _)
              (append_line_numbers_wf ht _ _) t hmem
          · exact ih _ _ _ hf ht t hmem
        · exact ih _ _ _ hf ht t hmem

/-- C5: every line range [begin, end] in either side list of every triple
yielded by the diff parser satisfies 1 ≤ begin ≤ end; a hunk side whose
parsed begin equals 0 contributes no range at all (`append_line_numbers`
returns its list unchanged for begin 0). -/
theorem C5_diff_ranges_wellformed :
    (∀ (diff_result : List Char) (t : DiffFileChanges),
      t ∈ (find_changed_source_files_and_lines diff_result).1 →
      ∀ r ∈ t.fromRanges ++ t.toRanges, 1 ≤ r.1 ∧ r.1 ≤ r.2) ∧
    (∀ (rs : List (Nat × Nat)) (total : Option Nat),
      append_line_numbers rs 0 total = rs) := by
  constructor
  · intro d t htmem r hr
    have h := diffLinesLoop_wf (pySplitlines d) none [] []
      rangesWellFormed_nil rangesWellFormed_nil t htmem
    rcases List.mem_append.mp hr with h1 | h1
    · exact h.1 r h1
    · exact h.2 r h1
  · intro rs total
    simp [append_line_numbers]

/-- Witness for C5: the from-side range produced for the C1 diff text is
well-formed. -/
theorem C5_diff_ranges_wellformed_witness :
    1 ≤ (424, 443).1 ∧ (424, 443).1 ≤ (424, 443).2 :=
  C5_diff_ranges_wellformed.1 c1DiffText
    ⟨"nsPrompt.cpp".toList, [(424, 443)], [(420, 420)]⟩ (by decide)
    (424, 443) (by decide)

/-- C1 counterexample: on the diff whose hunk header is
`@@ -424,20 +420,0 @@` the parser yields the from-side range [424,443]
together with the non-empty to-side range [420,420], refuting the claim that
a side with declared length 0 produces no range. -/
theorem C1_counterexample :
    (find_changed_source_files_and_lines c1DiffText).1.map
        (fun t => (t.fromRanges, t.toRanges)) = [([(424, 443)], [(420, 420)])] ∧
    ¬ ((find_changed_source_files_and_lines c1DiffText).1.map
        (fun t => (t.fromRanges, t.toRanges)) = [([(424, 443)], [])]) :=
  ⟨by decide, by decide⟩

/-- C1 amended: the hunk header `@@ -424,20 +420,0 @@` yields the from-side
range [424,443] and the degenerate to-side range [420,420]; a side is
excluded only when its parsed begin equals 0 (a declared length of 0 with a
positive begin still yields [begin, begin]). -/
theorem C1_amended_zero_length_side :
    (find_changed_source_files_and_lines c1DiffText).1 =
      [⟨"nsPrompt.cpp".toList, [(424, 443)], [(420, 420)]⟩] ∧
    (find_changed_source_files_and_lines c1DiffText).2 = true ∧
    (∀ (rs : List (Nat × Nat)) (total : Option Nat),
      append_line_numbers rs 0 total = rs) := by
  refine ⟨by decide, by decide, ?_⟩
  intro rs total
  simp [append_line_numbers]

/-- C2 counterexample: in a two-row timeline whose adjacent flip pair has the
vulnerable-labeled row first, the correction removes the file from the rows
at the vulnerable-labeled index and keeps the neutral-labeled row unchanged —
the opposite of the claim, which says removal always hits the
neutral-labeled index.  The removal is keyed on row position in the pair,
not on the Vulnerable label. -/
theorem C2_counterexample :
    c2RowVuln.vulnerable = true ∧
    c2RowNeutral.vulnerable = false ∧
    c2RowVuln.commitHash = c2RowNeutral.commitHash ∧
    lists_have_elements_in_common c2RowVuln.cves c2RowNeutral.cves = true ∧
    consecutive_commits [c2RowVuln, c2RowNeutral] = [(c2RowVuln, c2RowNeutral)] ∧
    consecutive_commits_correction [c2RowVuln, c2RowNeutral] = [c2RowNeutral] ∧
    c2RowVuln ∉ consecutive_commits_correction [c2RowVuln, c2RowNeutral] := by
  refine ⟨rfl, rfl, rfl, by decide, by decide, by decide, by decide⟩

/-- C2 amended: for a timeline whose flip-pair list is a single adjacent pair
(first row n, second row v) with distinct topological indices — in timelines
built by the main pass the neutral-labeled row comes first, so n is the
neutral row and v the vulnerable row — if their CVE lists intersect then
every row at n's topological index whose file path also occurs at v's
topological index is removed, every other row at n's index is kept, and
every row at v's index is kept unchanged; if the CVE lists do not intersect,
no row is removed. -/
theorem C2_amended_correction :
    ∀ (rows : List TimelineRow) (n v : TimelineRow),
      consecutive_commits rows = [(n, v)] →
      n.vulnerable = false → v.vulnerable = true →
      n.topologicalIndex ≠ v.topologicalIndex →
      ((lists_have_elements_in_common n.cves v.cves = true →
        (∀ r ∈ rows, r.topologicalIndex = n.topologicalIndex →
          ((filesAtIndex rows v.topologicalIndex).contains r.filePath = true →
            r ∉ consecutive_commits_correction rows) ∧
          ((filesAtIndex rows v.topologicalIndex).contains r.filePath = false →
            r ∈ consecutive_commits_correction rows)) ∧
        (∀ r ∈ rows, r.topologicalIndex = v.topologicalIndex →
          r ∈ consecutive_commits_correction rows)) ∧
      (lists_have_elements_in_common n.cves v.cves = false →
        consecutive_commits_correction rows = rows)) := by
  intro rows n v hpairs _ _ hneq
  have hres : consecutive_commits_correction rows = correctionStep rows (n, v) := by
    unfold consecutive_commits_correction
    rw [hpairs]
    simp
  constructor
  · intro hcommon
    rw [hres]
    unfold correctionStep
    rw [if_pos hcommon]
    constructor
    · intro r hr hrn
      constructor
      · intro hfile hmem
        have := List.mem_filter.mp hmem
        rw [hrn, hfile] at this
        simp at this
      · intro hfile
        refine List.mem_filter.mpr ⟨hr, ?_⟩
        rw [hrn, hfile]
        simp
    · intro r hr hrv
      refine List.mem_filter.mpr ⟨hr, ?_⟩
      have : (r.topologicalIndex == n.topologicalIndex) = false := by
        rw [hrv]
        exact beq_false_of_ne (Ne.symm hneq)
      rw [this]
      simp
  · intro hcommon
    rw [hres]
    unfold correctionStep
    rw [if_neg (by rw [hcommon]; exact Bool.false_ne_true)]

/-- Witness for the amended C2: with the neutral row first, the file listed
at both indices is removed from the neutral row's index and the vulnerable
row is kept. -/
theorem C2_amended_correction_witness :
    c2WitnessNeutral ∉ consecutive_commits_correction [c2WitnessNeutral, c2WitnessVuln] ∧
    c2WitnessVuln ∈ consecutive_commits_correction [c2WitnessNeutral, c2WitnessVuln] := by
  constructor
  · exact (((C2_amended_correction [c2WitnessNeutral, c2WitnessVuln]
      c2WitnessNeutral c2WitnessVuln (by decide) rfl rfl (by decide)).1
      (by decide)).1 c2WitnessNeutral (by simp) rfl).1 (by decide)
  · exact ((C2_amended_correction [c2WitnessNeutral, c2WitnessVuln]
      c2WitnessNeutral c2WitnessVuln (by decide) rfl rfl (by decide)).1
      (by decide)).2 c2WitnessVuln (by simp) rfl

theorem lastDoubleColonIndex_spec (run : List Char) :
    ∀ j, lastDoubleColonIndex run = some j →
      1 ≤ j ∧ run[j]? = some ':' ∧ run[j + 1]? = some ':' := by
  have main : ∀ (js : List Nat) (acc : Option Nat),
      (∀ j0, acc = some j0 → 1 ≤ j0 ∧ run[j0]? = some ':' ∧ run[j0 + 1]? = some ':') →
      ∀ j, js.foldl
          (fun a k => if 1 ≤ k ∧ run[k]? = some ':' ∧ run[k + 1]? = some ':' then some k else a)
          acc = some j →
        1 ≤ j ∧ run[j]? = some ':' ∧ run[j + 1]? = some ':' := by
    intro js
    induction js with
    | nil =>
        intro acc hacc j h
        exact hacc j (by simpa using h)
    | cons k rest ih =>
        intro acc hacc j h
        simp only [List.foldl_cons] at h
        by_cases hk : 1 ≤ k ∧ run[k]? = some ':' ∧ run[k + 1]? = some ':'
        · rw [if_pos hk] at h
          refine ih _ ?_ j h
          intro j0 hj0
          have : k = j0 := by simpa using hj0
          subst this
          exact hk
        · rw [if_neg hk] at h
          exact ih _ hacc j h
  intro j h
  exact main (List.range run.length) none (fun j0 hj0 => by simp at hj0) j h

theorem qualifierMatchLength_spec (l : List Char) (m : Nat)
    (h : qualifierMatchLength l = some m) :
    1 ≤ m ∧ ∀ c ∈ l.take m, pyIsSpace c = false := by
  unfold qualifierMatchLength at h
  set run := l.takeWhile (fun c => !pyIsSpace c) with hrun
  cases hld : lastDoubleColonIndex run with
  | none => rw [hld] at h; simp at h
  | some j =>
      rw [hld] at h
      simp only [Option.map_some'] at h
      obtain ⟨h1, _, h3⟩ := lastDoubleColonIndex_spec run j hld
      have hlen : j + 2 ≤ run.length := by
        by_contra hcon
        rw [List.getElem?_eq_none (by omega)] at h3
        exact Option.noConfusion h3
      obtain rfl : j + 2 = m := by simpa using h
      refine ⟨by omega, ?_⟩
      intro c hc
      obtain ⟨t, ht⟩ := List.takeWhile_prefix (p := fun c => !pyIsSpace c) (l := l)
      have htake : l.take (j + 2) = run.take (j + 2) := by
        rw [← ht, List.take_append_of_le_length hlen]
      rw [htake] at hc
      have hmem : c ∈ run := List.take_subset _ _ hc
      have := List.mem_takeWhile_imp hmem
      simpa using this

theorem stripSubAux_count (f : List Char → Option Nat)
    (hf : ∀ (l : List Char) (m : Nat), f l = some m →
      1 ≤ m ∧ ∀ c ∈ l.take m, pyIsSpace c = false)
    (c : Char) (hc : pyIsSpace c = true) :
    ∀ (fuel : Nat) (l : List Char), (stripSubAux f fuel l).count c = l.count c := by
  intro fuel
  induction fuel with
  | zero => intro l; rfl
  | succ n ih =>
      intro l
      cases l with
      | nil => rfl
      | cons d rest =>
          simp only [stripSubAux]
          cases hq : f (d :: rest) with
          | none =>
              simp only [List.count_cons]
              rw [ih rest]
          | some m =>
              obtain ⟨h1, h2⟩ := hf _ m hq
              have hdrop : rest.drop (m - 1) = (d :: rest).drop m := by
                cases m with
                | zero => omega
                | succ k => simp
              rw [ih (rest.drop (m - 1)), hdrop]
              conv_rhs => rw [← List.take_append_drop m (d :: rest)]
              rw [List.count_append]
              have hzero : ((d :: rest).take m).count c = 0 := by
                rw [List.count_eq_zero]
                intro hmem
                have := h2 c hmem
                rw [hc] at this
                exact Bool.noConfusion this
              omega

theorem stripSubAux_sublist (f : List Char → Option Nat) :
    ∀ (fuel : Nat) (l : List Char), (stripSubAux f fuel l).Sublist l := by
  intro fuel
  induction fuel with
  | zero => intro l; exact List.Sublist.refl l
  | succ n ih =>
      intro l
      cases l with
      | nil =>
          simp only [stripSubAux]
          exact List.Sublist.refl []
      | cons d rest =>
          simp only [stripSubAux]
          cases hq : f (d :: rest) with
          | none => exact List.Sublist.cons₂ d (ih rest)
          | some m =>
              exact (ih _).trans ((List.drop_sublist (m - 1) rest).trans
                (List.sublist_cons_self d rest))

/-- C10: the C++ preprocessing rewrite `re.sub(r'\S+::', '', source)` applied
before parsing only deletes characters (the result is a subsequence of the
source) and deletes only non-whitespace characters: every whitespace
character — in particular every newline — occurs exactly as often in the
rewritten text as in the original, so the rewritten text has exactly the
same number of newline-terminated lines as the original and the extracted
code units' line spans refer to line numbers of the original, unmodified
file. -/
theorem C10_qualifier_rewrite_preserves_lines :
    ∀ (source : List Char),
      (strip_scope_qualifiers source).Sublist source ∧
      (∀ c : Char, pyIsSpace c = true →
        (strip_scope_qualifiers source).count c = source.count c) ∧
      numLinesByNewlines (strip_scope_qualifiers source) = numLinesByNewlines source := by
  intro source
  refine ⟨stripSubAux_sublist qualifierMatchLength source.length source, ?_, ?_⟩
  · intro c hc
    exact stripSubAux_count qualifierMatchLength qualifierMatchLength_spec c hc
      source.length source
  · unfold numLinesByNewlines strip_scope_qualifiers
    rw [stripSubAux_count qualifierMatchLength qualifierMatchLength_spec '\n'
      (by decide) source.length source]

/-- Witness for C10: a concrete two-line C++ fragment keeps its newline count
(and hence line count) through the qualifier rewrite. -/
theorem C10_qualifier_rewrite_preserves_lines_witness :
    (strip_scope_qualifiers "void A::f()\nvoid g()\n".toList).count '\n' =
      ("void A::f()\nvoid g()\n".toList).count '\n' :=
  (C10_qualifier_rewrite_preserves_lines "void A::f()\nvoid g()\n".toList).2.1
    '\n' (by decide)

/-- C3: in the checkpoint sequence built by the timeline builder (first commit
flagged not vulnerable, then a vulnerable checkpoint followed by a neutral
checkpoint for every (vulnerable, neutral) pair), every pair of adjacent
checkpoints has exactly one vulnerable member, the sequence has `2·n + 1`
checkpoints for `n` pairs, and in particular 3 pairs produce 7 checkpoints. -/
theorem C3_checkpoint_alternation :
    ∀ (first_commit : String) (pairs : List (String × String)),
      List.Chain' (fun a b : Checkpoint => a.vulnerable ≠ b.vulnerable)
        (create_commit_list first_commit pairs) ∧
      (create_commit_list first_commit pairs).length = 2 * pairs.length + 1 ∧
      (∀ p1 p2 p3 : String × String,
        (create_commit_list first_commit [p1, p2, p3]).length = 7) := by
  intro first_commit pairs
  refine ⟨create_commit_pairs_aux_chain pairs 1 _ rfl, ?_, ?_⟩
  · simp [create_commit_list, create_commit_pairs_aux_length]
  · intro p1 p2 p3
    simp [create_commit_list, create_commit_pairs_aux_length]

/-- C6: the overlap test `check_range_overlap` is symmetric for every pair of
ranges, including malformed ones (begin > end), which are treated as
non-overlapping; moreover `[10,20]` does not overlap `[5,9]`, but overlaps
`[19,21]` and `[20,20]`. -/
theorem C6_overlap_symmetric :
    (∀ a b : Int × Int, check_range_overlap a b = check_range_overlap b a) ∧
    check_range_overlap (10, 20) (5, 9) = false ∧
    check_range_overlap (10, 20) (19, 21) = true ∧
    check_range_overlap (10, 20) (20, 20) = true := by
  refine ⟨?_, by decide, by decide, by decide⟩
  intro a b
  obtain ⟨a1, a2⟩ := a
  obtain ⟨b1, b2⟩ := b
  simp only [check_range_overlap]
  by_cases h1 : a1 > a2 <;> by_cases h2 : b1 > b2 <;> simp [h1, h2]
  exact Bool.and_comm _ _

/-- C9: with a loaded repository, the topological sort returns its input
unchanged whenever it has at most one element, and returns the empty list
whenever the underlying `git rev-list` invocation (only reached for two or
more hashes) fails. -/
theorem C9_toposort_small_and_error :
    ∀ (rev_list : List String → Except String (List String)) (hash_list : List String),
      (hash_list.length ≤ 1 →
        sort_git_commit_hashes_topologically rev_list true hash_list = hash_list) ∧
      (∀ err : String, 1 < hash_list.length → rev_list hash_list = Except.error err →
        sort_git_commit_hashes_topologically rev_list true hash_list = []) := by
  intro f l
  constructor
  · intro h
    simp [sort_git_commit_hashes_topologically, h]
  · intro e hl he
    have h1 : ¬ l.length ≤ 1 := by omega
    simp [sort_git_commit_hashes_topologically, h1, he]

/-- Witness for C9: the singleton list is returned unchanged even when the
rev-list call would fail, and a two-element list maps to the empty list when
the rev-list call fails. -/
theorem C9_toposort_small_and_error_witness :
    sort_git_commit_hashes_topologically (fun _ => Except.error "bad") true ["a"] = ["a"] ∧
    sort_git_commit_hashes_topologically (fun _ => Except.error "bad") true ["a", "b"] = [] := by
  constructor
  · exact (C9_toposort_small_and_error (fun _ => Except.error "bad") ["a"]).1 (by decide)
  · exact (C9_toposort_small_and_error (fun _ => Except.error "bad") ["a", "b"]).2 "bad"
      (by decide) rfl

/-- C4: in the second pass of the affected-file mapper, a unit extracted with
the vulnerable commit checked out is marked `Vulnerable = "Yes"` iff its line
span overlaps at least one vulnerable-side changed-line range, and every unit
extracted with the neutral commit checked out is marked `Vulnerable = "No"`. -/
theorem C4_unit_marking :
    ∀ (changed_lines : List (Int × Int)) (units : List FileCodeUnit) (u : FileCodeUnit),
      (u ∈ mark_code_units true changed_lines units →
        (u.vulnerable = some "Yes" ↔
          ∃ r ∈ changed_lines, check_range_overlap u.lines r = true)) ∧
      (u ∈ mark_code_units false changed_lines units → u.vulnerable = some "No") := by
  intro changed_lines units u
  constructor
  · intro hu
    obtain ⟨u0, _, rfl⟩ := List.mem_map.mp hu
    simp only [mark_code_unit, Bool.true_and]
    by_cases h : changed_lines.any (fun r => check_range_overlap u0.lines r)
    · simp only [h, if_pos rfl]
      simp only [List.any_eq_true] at h
      simpa using h
    · simp only [h]
      constructor
      · intro hcon
        simp at hcon
      · intro hex
        exfalso
        apply h
        simp only [List.any_eq_true]
        simpa using hex
  · intro hu
    obtain ⟨u0, _, rfl⟩ := List.mem_map.mp hu
    simp [mark_code_unit]

/-- Witness for C4: a unit spanning lines 10–20 is marked vulnerable on the
vulnerable side given the changed range [19,21], and a unit is marked `"No"`
on the neutral side. -/
theorem C4_unit_marking_witness :
    ((FileCodeUnit.mk "f" (10, 20) (some "Yes")).vulnerable = some "Yes" ↔
      ∃ r ∈ [((19 : Int), (21 : Int))],
        check_range_overlap (FileCodeUnit.mk "f" (10, 20) (some "Yes")).lines r = true) ∧
    (FileCodeUnit.mk "g" (1, 2) (some "No")).vulnerable = some "No" := by
  constructor
  · exact (C4_unit_marking [(19, 21)] [FileCodeUnit.mk "f" (10, 20) none]
      (FileCodeUnit.mk "f" (10, 20) (some "Yes"))).1 (by decide)
  · exact (C4_unit_marking [] [FileCodeUnit.mk "g" (1, 2) none]
      (FileCodeUnit.mk "g" (1, 2) (some "No"))).2 (by decide)

theorem charOfNat_toNat (c : Char) : Char.ofNat c.toNat = c := by
  have hvalid : Nat.isValidChar c.toNat := by
    rcases c.valid with h | ⟨h1, h2⟩
    · exact Or.inl h
    · exact Or.inr ⟨h1, h2⟩
  unfold Char.ofNat
  rw [dif_pos hvalid]
  apply Char.eq_of_val_eq
  unfold Char.ofNatAux
  apply UInt32.eq_of_toBitVec_eq
  apply BitVec.eq_of_toNat_eq
  simp [Char.toNat, UInt32.toNat]

theorem digitChar_spec (d : Nat) (hd : d < 10) :
    (digitChar d).isDigit = true ∧ (digitChar d).toNat - '0'.toNat = d ∧
    digitChar d ≠ '-' := by
  interval_cases d <;> exact ⟨by decide, by decide, by decide⟩

theorem digitsToNat_append_digit (ds : List Char) (c : Char) :
    digitsToNat (ds ++ [c]) = digitsToNat ds * 10 + (c.toNat - '0'.toNat) := by
  unfold digitsToNat
  rw [List.foldl_append]
  rfl

theorem natDigitsAux_spec :
    ∀ (fuel n : Nat), n < fuel →
      natDigitsAux fuel n ≠ [] ∧
      (∀ c ∈ natDigitsAux fuel n, c.isDigit = true) ∧
      digitsToNat (natDigitsAux fuel n) = n := by
  intro fuel
  induction fuel with
  | zero => intro n h; omega
  | succ fuel ih =>
      intro n h
      by_cases h10 : n < 10
      · obtain ⟨hd1, hd2, _⟩ := digitChar_spec n h10
        refine ⟨by simp [natDigitsAux, h10], ?_, ?_⟩
        · intro c hc
          simp [natDigitsAux, h10] at hc
          subst hc
          exact hd1
        · rw [show natDigitsAux (fuel + 1) n = [digitChar n] from by simp [natDigitsAux, h10]]
          have he : digitsToNat [digitChar n] = 0 * 10 + ((digitChar n).toNat - '0'.toNat) := rfl
          rw [he, hd2]
          omega
      · have hdiv : n / 10 < fuel := by
          have : n / 10 < n := Nat.div_lt_self (by omega) (by omega)
          omega
        obtain ⟨ih1, ih2, ih3⟩ := ih (n / 10) hdiv
        obtain ⟨hm1, hm2, _⟩ := digitChar_spec (n % 10) (Nat.mod_lt n (by omega))
        refine ⟨by simp [natDigitsAux, h10], ?_, ?_⟩
        · intro c hc
          simp only [natDigitsAux, if_neg h10, List.mem_append, List.mem_singleton] at hc
          rcases hc with hc | hc
          · exact ih2 c hc
          · subst hc; exact hm1
        · simp only [natDigitsAux, if_neg h10]
          rw [digitsToNat_append_digit, ih3, hm2]
          omega

theorem natToChars_spec (n : Nat) :
    natToChars n ≠ [] ∧ (∀ c ∈ natToChars n, c.isDigit = true) ∧
    digitsToNat (natToChars n) = n :=
  natDigitsAux_spec (n + 1) n (by omega)

theorem natToChars_head (n : Nat) :
    ∃ d t, natToChars n = d :: t ∧ d.isDigit = true := by
  obtain ⟨h1, h2, _⟩ := natToChars_spec n
  cases hn : natToChars n with
  | nil => exact absurd hn h1
  | cons d t => exact ⟨d, t, rfl, h2 d (by rw [hn]; exact List.mem_cons_self d t)⟩

theorem headIs_cons (c d : Char) (r : List Char) : headIs c (d :: r) = (d == c) := rfl

theorem headIs_false_of_ne {c d : Char} (r : List Char) (h : d ≠ c) :
    headIs c (d :: r) = false := by
  simp [headIs, h]

theorem isPrefixOf_false_of_head_ne {a d : Char} (t r : List Char) (h : d ≠ a) :
    (a :: t).isPrefixOf (d :: r) = false := by
  simp [List.isPrefixOf, List.IsPrefix]
  intro he
  exact absurd he.symm h

theorem spanDigits_append (ds rest : List Char) (h : ∀ c ∈ ds, c.isDigit = true)
    (hr : headNotDigit rest = true) :
    spanDigits (ds ++ rest) = (ds, rest) := by
  unfold spanDigits
  induction ds with
  | nil =>
      cases rest with
      | nil => rfl
      | cons c r =>
          simp only [headNotDigit, Bool.not_eq_true'] at hr
          simp [List.takeWhile, List.dropWhile, hr]
  | cons d t ih =>
      have hd : d.isDigit = true := h d (List.mem_cons_self d t)
      have ht : ∀ c ∈ t, c.isDigit = true := fun c hc => h c (List.mem_cons_of_mem d hc)
      simp only [List.cons_append, List.takeWhile_cons, List.dropWhile_cons, hd, if_pos]
      have := ih ht
      simp only [Prod.mk.injEq] at this
      simp [this.1, this.2]

theorem parseIntToken_intToChars (n : Int) (rest : List Char)
    (hr : headNotDigit rest = true) :
    parseIntToken (intToChars n ++ rest) = some (n, rest) := by
  by_cases hn : n < 0
  · obtain ⟨hne, hdig, hval⟩ := natToChars_spec (-n).toNat
    rw [show intToChars n = '-' :: natToChars (-n).toNat from by simp [intToChars, hn]]
    rw [List.cons_append]
    unfold parseIntToken
    rw [show headIs '-' ('-' :: (natToChars (-n).toNat ++ rest)) = true from by simp [headIs]]
    simp only [if_pos rfl, List.tail_cons]
    rw [spanDigits_append _ _ hdig hr]
    simp only [List.isEmpty_iff]
    rw [if_neg hne]
    have hcast : ((digitsToNat (natToChars (-n).toNat) : Int)) = -n := by
      rw [hval]
      exact Int.toNat_of_nonneg (by omega)
    rw [hcast]
    simp
  · obtain ⟨hne, hdig, hval⟩ := natToChars_spec n.toNat
    rw [show intToChars n = natToChars n.toNat from by simp [intToChars, hn]]
    obtain ⟨d, t, hd, hdd⟩ := natToChars_head n.toNat
    unfold parseIntToken
    rw [hd, List.cons_append]
    rw [headIs_false_of_ne _ (by intro he; subst he; simp at hdd)]
    simp only [Bool.false_eq_true, if_false]
    rw [← List.cons_append, ← hd, spanDigits_append _ _ hdig hr]
    simp only [List.isEmpty_iff]
    rw [if_neg hne]
    have hcast : ((digitsToNat (natToChars n.toNat) : Int)) = n := by
      rw [hval]
      exact Int.toNat_of_nonneg (by omega)
    rw [hcast]

theorem escapeString_nil : escapeString [] = [] := rfl

theorem escapeString_cons (c : Char) (cs : List Char) :
    escapeString (c :: cs) = escapeChar c ++ escapeString cs := by
  simp [escapeString]

theorem hexVal_hexDigitChar (k : Nat) (hk : k < 16) : hexVal (hexDigitChar k) = some k := by
  interval_cases k <;> decide

theorem parseStringBodyAux_escape :
    ∀ (fuel : Nat) (s : List Char) (rest : List Char), s.length + 1 ≤ fuel →
      parseStringBodyAux fuel (escapeString s ++ '"' :: rest) = some (s, rest) := by
  intro fuel
  induction fuel with
  | zero => intro s rest h; omega
  | succ fuel ih =>
      intro s rest h
      cases s with
      | nil =>
          rw [escapeString_nil, List.nil_append, parseStringBodyAux]
          simp
      | cons c cs =>
          have hcs : cs.length + 1 ≤ fuel := by
            simp only [List.length_cons] at h
            omega
          have ihc := ih cs rest hcs
          rw [escapeString_cons, List.append_assoc]
          by_cases h1 : c = '"'
          · subst h1
            rw [show escapeChar '"' = ['\\', '"'] from by decide]
            simp only [List.cons_append, List.nil_append]
            rw [parseStringBodyAux]
            simp only [show ('\\' : Char) = '"' ↔ False from by simp,
              show ('\\' : Char) = '\\' ↔ True from by simp, if_false, if_true]
            rw [parseEscapeToken]
            simp [ihc]
          by_cases h2 : c = '\\'
          · subst h2
            rw [show escapeChar '\\' = ['\\', '\\'] from by decide]
            simp only [List.cons_append, List.nil_append]
            rw [parseStringBodyAux]
            simp only [show ('\\' : Char) = '"' ↔ False from by simp,
              show ('\\' : Char) = '\\' ↔ True from by simp, if_false, if_true]
            rw [parseEscapeToken]
            simp [ihc]
          by_cases h3 : c = '\n'
          · subst h3
            rw [show escapeChar '\n' = ['\\', 'n'] from by decide]
            simp only [List.cons_append, List.nil_append]
            rw [parseStringBodyAux]
            simp only [show ('\\' : Char) = '"' ↔ False from by simp,
              show ('\\' : Char) = '\\' ↔ True from by simp, if_false, if_true]
            rw [parseEscapeToken]
            simp [ihc]
          by_cases h4 : c = '\t'
          · subst h4
            rw [show escapeChar '\t' = ['\\', 't'] from by decide]
            simp only [List.cons_append, List.nil_append]
            rw [parseStringBodyAux]
            simp only [show ('\\' : Char) = '"' ↔ False from by simp,
              show ('\\' : Char) = '\\' ↔ True from by simp, if_false, if_true]
            rw [parseEscapeToken]
            simp [ihc]
          by_cases h5 : c = '\r'
          · subst h5
            rw [show escapeChar '\r' = ['\\', 'r'] from by decide]
            simp only [List.cons_append, List.nil_append]
            rw [parseStringBodyAux]
            simp only [show ('\\' : Char) = '"' ↔ False from by simp,
              show ('\\' : Char) = '\\' ↔ True from by simp, if_false, if_true]
            rw [parseEscapeToken]
            simp [ihc]
          by_cases h6 : c = '\x08'
          · subst h6
            rw [show escapeChar '\x08' = ['\\', 'b'] from by decide]
            simp only [List.cons_append, List.nil_append]
            rw [parseStringBodyAux]
            simp only [show ('\\' : Char) = '"' ↔ False from by simp,
              show ('\\' : Char) = '\\' ↔ True from by simp, if_false, if_true]
            rw [parseEscapeToken]
            simp [ihc]
          by_cases h7 : c = '\x0c'
          · subst h7
            rw [show escapeChar '\x0c' = ['\\', 'f'] from by decide]
            simp only [List.cons_append, List.nil_append]
            rw [parseStringBodyAux]
            simp only [show ('\\' : Char) = '"' ↔ False from by simp,
              show ('\\' : Char) = '\\' ↔ True from by simp, if_false, if_true]
            rw [parseEscapeToken]
            simp [ihc]
          by_cases h8 : c.toNat < 0x20
          · rw [show escapeChar c =
                ['\\', 'u', '0', '0', hexDigitChar (c.toNat / 16),
                  hexDigitChar (c.toNat % 16)] from by
              simp [escapeChar, h1, h2, h3, h4, h5, h6, h7, h8]]
            simp only [List.cons_append, List.nil_append]
            rw [parseStringBodyAux]
            simp only [show ('\\' : Char) = '"' ↔ False from by simp,
              show ('\\' : Char) = '\\' ↔ True from by simp, if_false, if_true]
            rw [parseEscapeToken]
            simp only [show ('u' : Char) = '"' ↔ False from by simp,
              show ('u' : Char) = '\\' ↔ False from by simp,
              show ('u' : Char) = '/' ↔ False from by simp,
              show ('u' : Char) = 'n' ↔ False from by simp,
              show ('u' : Char) = 't' ↔ False from by simp,
              show ('u' : Char) = 'r' ↔ False from by simp,
              show ('u' : Char) = 'b' ↔ False from by simp,
              show ('u' : Char) = 'f' ↔ False from by simp,
              show ('u' : Char) = 'u' ↔ True from by simp, if_false, if_true]
            rw [parseUnicodeEscape]
            rw [show hexVal '0' = some 0 from by decide]
            rw [hexVal_hexDigitChar (c.toNat / 16) (by omega)]
            rw [hexVal_hexDigitChar (c.toNat % 16) (by omega)]
            simp only [Option.some_bind, ihc, Option.map_some']
            have hcode : ((0 * 16 + 0) * 16 + c.toNat / 16) * 16 + c.toNat % 16 = c.toNat := by
              omega
            rw [hcode, charOfNat_toNat]
          · rw [show escapeChar c = [c] from by
              simp [escapeChar, h1, h2, h3, h4, h5, h6, h7, h8]]
            simp only [List.cons_append, List.nil_append]
            rw [parseStringBodyAux]
            simp [h1, h2, ihc]

theorem parseStringBody_escape (s : List Char) (rest : List Char) :
    parseStringBody (escapeString s ++ '"' :: rest) = some (s, rest) := by
  unfold parseStringBody
  apply parseStringBodyAux_escape
  have hlen : s.length ≤ (escapeString s).length := by
    induction s with
    | nil => simp [escapeString_nil]
    | cons c cs ihs =>
        rw [escapeString_cons]
        have hesc : 1 ≤ (escapeChar c).length := by
          unfold escapeChar
          split
          · simp
          · split
            · simp
            · split
              · simp
              · split
                · simp
                · split
                  · simp
                  · split
                    · simp
                    · split
                      · simp
                      · split
                        · simp
                        · simp
        simp only [List.length_append, List.length_cons]
        omega
  simp only [List.length_append, List.length_cons]
  omega

theorem isDigit_ne (d : Char) (hdd : d.isDigit = true) (c : Char) (hc : c.isDigit = false) :
    d ≠ c := by
  intro he
  rw [he, hc] at hdd
  exact Bool.noConfusion hdd

theorem jsonDumps_head_cons (v : Json) :
    ∃ d t, jsonDumps v = d :: t ∧ d ≠ ']' ∧ d ≠ '\x7d' := by
  cases v with
  | null => exact ⟨'n', ['u', 'l', 'l'], by rw [jsonDumps]; rfl, by decide, by decide⟩
  | bool b =>
      cases b with
      | false =>
          exact ⟨'f', ['a', 'l', 's', 'e'], by rw [jsonDumps]; rfl, by decide, by decide⟩
      | true => exact ⟨'t', ['r', 'u', 'e'], by rw [jsonDumps]; rfl, by decide, by decide⟩
  | int n =>
      by_cases hn : n < 0
      · refine ⟨'-', natToChars (-n).toNat, ?_, by decide, by decide⟩
        rw [jsonDumps]
        simp [intToChars, hn]
      · obtain ⟨d, t, hd, hdd⟩ := natToChars_head n.toNat
        refine ⟨d, t, ?_, ?_, ?_⟩
        · rw [jsonDumps]
          simp [intToChars, hn, hd]
        · exact isDigit_ne d hdd ']' (by decide)
        · exact isDigit_ne d hdd '\x7d' (by decide)
  | str s =>
      exact ⟨'"', escapeString s ++ ['"'], by rw [jsonDumps]; simp, by decide, by decide⟩
  | arr xs =>
      cases xs with
      | nil => exact ⟨'[', [']'], by rw [jsonDumps], by decide, by decide⟩
      | cons x t =>
          exact ⟨'[', dumpsElems (x :: t) ++ [']'], by rw [jsonDumps]; simp,
            by decide, by decide⟩
  | obj kvs =>
      cases kvs with
      | nil => exact ⟨'\x7b', ['\x7d'], by rw [jsonDumps], by decide, by decide⟩
      | cons kv t =>
          exact ⟨'\x7b', dumpsMembers (kv :: t) ++ ['\x7d'], by rw [jsonDumps]; simp,
            by decide, by decide⟩

theorem headIs_closer_dumps_append (v : Json) (rest : List Char) :
    headIs ']' (jsonDumps v ++ rest) = false ∧
    headIs '\x7d' (jsonDumps v ++ rest) = false := by
  obtain ⟨d, t, hd, h1, h2⟩ := jsonDumps_head_cons v
  rw [hd, List.cons_append]
  exact ⟨headIs_false_of_ne _ h1, headIs_false_of_ne _ h2⟩

theorem dumpsElems_cons_eq (x : Json) (t : List Json) :
    ∃ A, dumpsElems (x :: t) = jsonDumps x ++ A := by
  cases t with
  | nil => exact ⟨[], by rw [dumpsElems]; simp⟩
  | cons y r => exact ⟨',' :: ' ' :: dumpsElems (y :: r), by rw [dumpsElems]⟩

theorem dumpsMembers_head (kv : List Char × Json) (t : List (List Char × Json)) :
    ∃ A, dumpsMembers (kv :: t) = '"' :: A := by
  obtain ⟨k, v⟩ := kv
  cases t with
  | nil =>
      exact ⟨escapeString k ++ '"' :: ':' :: ' ' :: jsonDumps v,
        by rw [dumpsMembers]; simp⟩
  | cons m r =>
      refine ⟨(escapeString k ++ '"' :: ':' :: ' ' :: jsonDumps v) ++
        ',' :: ' ' :: dumpsMembers (m :: r), ?_⟩
      rw [dumpsMembers]
      simp

theorem parseElems_dumps :
    ∀ (xs : List Json), xs ≠ [] → (∀ x ∈ xs, ParsesBack x) →
      ∀ (fuel : Nat) (rest : List Char), jsonFuelElems xs ≤ fuel →
        parseElems fuel (dumpsElems xs ++ ']' :: rest) = some (xs, rest) := by
  intro xs
  induction xs with
  | nil => intro h; exact absurd rfl h
  | cons x t ih =>
      intro _ hx fuel rest hfuel
      have hPx : ParsesBack x := hx x (List.mem_cons_self x t)
      rw [jsonFuelElems] at hfuel
      cases fuel with
      | zero => omega
      | succ fuel =>
          rw [parseElems]
          cases t with
          | nil =>
              rw [show dumpsElems [x] = jsonDumps x from by rw [dumpsElems]]
              rw [hPx fuel (']' :: rest) (by omega) (by simp [headNotDigit])]
              simp [List.isPrefixOf, headIs]
          | cons y r =>
              rw [show dumpsElems (x :: y :: r) =
                  jsonDumps x ++ ',' :: ' ' :: dumpsElems (y :: r) from by rw [dumpsElems]]
              rw [List.append_assoc]
              simp only [List.cons_append]
              rw [hPx fuel (',' :: ' ' :: (dumpsElems (y :: r) ++ ']' :: rest)) (by omega)
                (by simp [headNotDigit])]
              have hpre : ([',', ' '].isPrefixOf
                  (',' :: ' ' :: (dumpsElems (y :: r) ++ ']' :: rest))) = true := by
                simp [List.isPrefixOf]
              simp only [hpre, if_true, List.drop_succ_cons, List.drop_zero]
              rw [ih (by simp) (fun z hz => hx z (List.mem_cons_of_mem x hz)) fuel rest
                (by rw [jsonFuelElems] at hfuel ⊢; omega)]
              rfl

theorem parseMembers_dumps :
    ∀ (kvs : List (List Char × Json)), kvs ≠ [] → (∀ kv ∈ kvs, ParsesBack kv.2) →
      ∀ (fuel : Nat) (rest : List Char), jsonFuelMembers kvs ≤ fuel →
        parseMembers fuel (dumpsMembers kvs ++ '\x7d' :: rest) = some (kvs, rest) := by
  intro kvs
  induction kvs with
  | nil => intro h; exact absurd rfl h
  | cons kv t ih =>
      obtain ⟨k, v⟩ := kv
      intro _ hkv fuel rest hfuel
      have hPv : ParsesBack v := hkv (k, v) (List.mem_cons_self _ t)
      rw [jsonFuelMembers] at hfuel
      cases fuel with
      | zero => omega
      | succ fuel =>
          rw [parseMembers]
          cases t with
          | nil =>
              rw [show dumpsMembers [(k, v)] =
                  '"' :: escapeString k ++ '"' :: ':' :: ' ' :: jsonDumps v from by
                rw [dumpsMembers]]
              simp only [List.cons_append, List.append_assoc]
              have hq : headIs '"'
                  ('"' :: (escapeString k ++ '"' :: ':' :: ' ' :: (jsonDumps v ++ '\x7d' :: rest)))
                  = true := by simp [headIs]
              simp only [hq, if_true, List.tail_cons]
              rw [parseStringBody_escape k (':' :: ' ' :: (jsonDumps v ++ '\x7d' :: rest))]
              have hc : ([':', ' '].isPrefixOf
                  (':' :: ' ' :: (jsonDumps v ++ '\x7d' :: rest))) = true := by
                simp [List.isPrefixOf]
              simp only [hc, if_true, List.drop_succ_cons, List.drop_zero]
              rw [hPv fuel ('\x7d' :: rest) (by omega) (by simp [headNotDigit])]
              have hnc : ([',', ' '].isPrefixOf ('\x7d' :: rest)) = false := by
                simp [List.isPrefixOf]
              have hcl : headIs '\x7d' ('\x7d' :: rest) = true := by simp [headIs]
              simp only [hnc, Bool.false_eq_true, if_false, hcl, if_true, List.tail_cons]
          | cons m r =>
              rw [show dumpsMembers ((k, v) :: m :: r) =
                  ('"' :: escapeString k ++ '"' :: ':' :: ' ' :: jsonDumps v) ++
                    ',' :: ' ' :: dumpsMembers (m :: r) from by rw [dumpsMembers]]
              simp only [List.cons_append, List.append_assoc]
              have hq : headIs '"'
                  ('"' :: (escapeString k ++ '"' :: ':' :: ' ' ::
                    (jsonDumps v ++ ',' :: ' ' :: (dumpsMembers (m :: r) ++ '\x7d' :: rest))))
                  = true := by simp [headIs]
              simp only [hq, if_true, List.tail_cons]
              rw [parseStringBody_escape k
                (':' :: ' ' :: (jsonDumps v ++ ',' :: ' ' :: (dumpsMembers (m :: r) ++ '\x7d' :: rest)))]
              have hc : ([':', ' '].isPrefixOf
                  (':' :: ' ' :: (jsonDumps v ++ ',' :: ' ' ::
                    (dumpsMembers (m :: r) ++ '\x7d' :: rest)))) = true := by
                simp [List.isPrefixOf]
              simp only [hc, if_true, List.drop_succ_cons, List.drop_zero]
              rw [hPv fuel (',' :: ' ' :: (dumpsMembers (m :: r) ++ '\x7d' :: rest)) (by omega)
                (by simp [headNotDigit])]
              have hcm : ([',', ' '].isPrefixOf
                  (',' :: ' ' :: (dumpsMembers (m :: r) ++ '\x7d' :: rest))) = true := by
                simp [List.isPrefixOf]
              simp only [hcm, if_true, List.drop_succ_cons, List.drop_zero]
              rw [ih (by simp) (fun z hz => hkv z (List.mem_cons_of_mem (k, v) hz)) fuel rest
                (by rw [jsonFuelMembers] at hfuel ⊢; omega)]
              rfl

theorem intToChars_head (n : Int) :
    ∃ d t, intToChars n = d :: t ∧ (d = '-' ∨ d.isDigit = true) := by
  by_cases hn : n < 0
  · exact ⟨'-', natToChars (-n).toNat, by simp [intToChars, hn], Or.inl rfl⟩
  · obtain ⟨d, t, hd, hdd⟩ := natToChars_head n.toNat
    exact ⟨d, t, by simp [intToChars, hn, hd], Or.inr hdd⟩

theorem intHead_ne (d : Char) (hd : d = '-' ∨ d.isDigit = true) (c : Char)
    (h1 : c ≠ '-') (h2 : c.isDigit = false) : d ≠ c := by
  rcases hd with rfl | hdd
  · exact fun he => h1 he.symm
  · exact isDigit_ne d hdd c h2

theorem jsonFuel_null : jsonFuel Json.null = 1 := by rfl

theorem jsonFuel_bool (b : Bool) : jsonFuel (.bool b) = 1 := by rfl

theorem jsonFuel_int (n : Int) : jsonFuel (.int n) = 1 := by rfl

theorem jsonFuel_str (s : List Char) : jsonFuel (.str s) = 1 := by rfl

theorem parseValue_dumps : ∀ (N : Nat) (v : Json), sizeOf v ≤ N → ParsesBack v := by
  intro N
  induction N with
  | zero =>
      intro v h
      exfalso
      cases v <;> simp at h
  | succ N ihN =>
      intro v hN
      cases v with
      | null =>
          intro fuel rest hfuel hrest
          rw [jsonFuel_null] at hfuel
          cases fuel with
          | zero => omega
          | succ fuel =>
              rw [parseValue]
              rw [show jsonDumps .null = ['n', 'u', 'l', 'l'] from by rw [jsonDumps]; rfl]
              simp only [List.cons_append, List.nil_append]
              have h1 : (nullToken.isPrefixOf ('n' :: 'u' :: 'l' :: 'l' :: rest)) = true := by
                simp [nullToken, List.isPrefixOf]
              simp only [h1, if_true]
              simp [List.drop]
      | bool b =>
          intro fuel rest hfuel hrest
          rw [jsonFuel_bool] at hfuel
          cases fuel with
          | zero => omega
          | succ fuel =>
              rw [parseValue]
              cases b with
              | true =>
                  rw [show jsonDumps (.bool true) = ['t', 'r', 'u', 'e'] from by rw [jsonDumps]; rfl]
                  simp only [List.cons_append, List.nil_append]
                  have h1 : (nullToken.isPrefixOf ('t' :: 'r' :: 'u' :: 'e' :: rest)) = false := by
                    simp [nullToken, List.isPrefixOf]
                  have h2 : (trueToken.isPrefixOf ('t' :: 'r' :: 'u' :: 'e' :: rest)) = true := by
                    simp [trueToken, List.isPrefixOf]
                  simp only [h1, Bool.false_eq_true, if_false, h2, if_true]
                  simp [List.drop]
              | false =>
                  rw [show jsonDumps (.bool false) = ['f', 'a', 'l', 's', 'e'] from by
                    rw [jsonDumps]; rfl]
                  simp only [List.cons_append, List.nil_append]
                  have h1 : (nullToken.isPrefixOf ('f' :: 'a' :: 'l' :: 's' :: 'e' :: rest)) = false := by
                    simp [nullToken, List.isPrefixOf]
                  have h2 : (trueToken.isPrefixOf ('f' :: 'a' :: 'l' :: 's' :: 'e' :: rest)) = false := by
                    simp [trueToken, List.isPrefixOf]
                  have h3 : (falseToken.isPrefixOf ('f' :: 'a' :: 'l' :: 's' :: 'e' :: rest)) = true := by
                    simp [falseToken, List.isPrefixOf]
                  simp only [h1, h2, Bool.false_eq_true, if_false, h3, if_true]
                  simp [List.drop]
      | int n =>
          intro fuel rest hfuel hrest
          rw [jsonFuel_int] at hfuel
          cases fuel with
          | zero => omega
          | succ fuel =>
              rw [parseValue]
              obtain ⟨d, t, hd, hd2⟩ := intToChars_head n
              rw [show jsonDumps (.int n) = intToChars n from by rw [jsonDumps], hd,
                List.cons_append]
              have h1 : (nullToken.isPrefixOf (d :: (t ++ rest))) = false := by
                rw [show nullToken = 'n' :: ('u' :: 'l' :: 'l' :: []) from rfl]
                exact isPrefixOf_false_of_head_ne _ _ (intHead_ne d hd2 'n' (by decide) (by decide))
              have h2 : (trueToken.isPrefixOf (d :: (t ++ rest))) = false := by
                rw [show trueToken = 't' :: ('r' :: 'u' :: 'e' :: []) from rfl]
                exact isPrefixOf_false_of_head_ne _ _ (intHead_ne d hd2 't' (by decide) (by decide))
              have h3 : (falseToken.isPrefixOf (d :: (t ++ rest))) = false := by
                rw [show falseToken = 'f' :: ('a' :: 'l' :: 's' :: 'e' :: []) from rfl]
                exact isPrefixOf_false_of_head_ne _ _ (intHead_ne d hd2 'f' (by decide) (by decide))
              have h4 : headIs '"' (d :: (t ++ rest)) = false :=
                headIs_false_of_ne _ (intHead_ne d hd2 '"' (by decide) (by decide))
              have h5 : headIs '[' (d :: (t ++ rest)) = false :=
                headIs_false_of_ne _ (intHead_ne d hd2 '[' (by decide) (by decide))
              have h6 : headIs '\x7b' (d :: (t ++ rest)) = false :=
                headIs_false_of_ne _ (intHead_ne d hd2 '\x7b' (by decide) (by decide))
              simp only [h1, h2, h3, h4, h5, h6, Bool.false_eq_true, if_false]
              rw [← List.cons_append, ← hd, parseIntToken_intToChars n rest hrest]
              rfl
      | str s =>
          intro fuel rest hfuel hrest
          rw [jsonFuel_str] at hfuel
          cases fuel with
          | zero => omega
          | succ fuel =>
              rw [parseValue]
              rw [show jsonDumps (.str s) = ('"' :: escapeString s) ++ ['"'] from by
                rw [jsonDumps]]
              simp only [List.cons_append, List.append_assoc, List.nil_append]
              have h1 : (nullToken.isPrefixOf ('"' :: (escapeString s ++ '"' :: rest))) = false := by
                rw [show nullToken = 'n' :: ('u' :: 'l' :: 'l' :: []) from rfl]
                exact isPrefixOf_false_of_head_ne _ _ (by decide)
              have h2 : (trueToken.isPrefixOf ('"' :: (escapeString s ++ '"' :: rest))) = false := by
                rw [show trueToken = 't' :: ('r' :: 'u' :: 'e' :: []) from rfl]
                exact isPrefixOf_false_of_head_ne _ _ (by decide)
              have h3 : (falseToken.isPrefixOf ('"' :: (escapeString s ++ '"' :: rest))) = false := by
                rw [show falseToken = 'f' :: ('a' :: 'l' :: 's' :: 'e' :: []) from rfl]
                exact isPrefixOf_false_of_head_ne _ _ (by decide)
              have h4 : headIs '"' ('"' :: (escapeString s ++ '"' :: rest)) = true := by
                simp [headIs]
              simp only [h1, h2, h3, Bool.false_eq_true, if_false, h4, if_true, List.tail_cons]
              rw [parseStringBody_escape s rest]
              rfl
      | arr xs =>
          intro fuel rest hfuel hrest
          rw [jsonFuel] at hfuel
          cases fuel with
          | zero => omega
          | succ fuel =>
              rw [parseValue]
              cases xs with
              | nil =>
                  rw [show jsonDumps (.arr []) = ['[', ']'] from by rw [jsonDumps]]
                  simp only [List.cons_append, List.nil_append]
                  have h1 : (nullToken.isPrefixOf ('[' :: ']' :: rest)) = false := by
                    simp [nullToken, List.isPrefixOf]
                  have h2 : (trueToken.isPrefixOf ('[' :: ']' :: rest)) = false := by
                    simp [trueToken, List.isPrefixOf]
                  have h3 : (falseToken.isPrefixOf ('[' :: ']' :: rest)) = false := by
                    simp [falseToken, List.isPrefixOf]
                  have h4 : headIs '"' ('[' :: ']' :: rest) = false := by simp [headIs]
                  have h5 : headIs '[' ('[' :: ']' :: rest) = true := by simp [headIs]
                  have h6 : headIs ']' (']' :: rest) = true := by simp [headIs]
                  simp only [h1, h2, h3, h4, Bool.false_eq_true, if_false, h5, if_true,
                    List.tail_cons]
                  rw [if_pos h6]
              | cons x t =>
                  rw [show jsonDumps (.arr (x :: t)) = ('[' :: dumpsElems (x :: t)) ++ [']'] from by
                    rw [jsonDumps]]
                  simp only [List.cons_append, List.append_assoc, List.nil_append]
                  have h1 : (nullToken.isPrefixOf
                      ('[' :: (dumpsElems (x :: t) ++ ']' :: rest))) = false := by
                    rw [show nullToken = 'n' :: ('u' :: 'l' :: 'l' :: []) from rfl]
                    exact isPrefixOf_false_of_head_ne _ _ (by decide)
                  have h2 : (trueToken.isPrefixOf
                      ('[' :: (dumpsElems (x :: t) ++ ']' :: rest))) = false := by
                    rw [show trueToken = 't' :: ('r' :: 'u' :: 'e' :: []) from rfl]
                    exact isPrefixOf_false_of_head_ne _ _ (by decide)
                  have h3 : (falseToken.isPrefixOf
                      ('[' :: (dumpsElems (x :: t) ++ ']' :: rest))) = false := by
                    rw [show falseToken = 'f' :: ('a' :: 'l' :: 's' :: 'e' :: []) from rfl]
                    exact isPrefixOf_false_of_head_ne _ _ (by decide)
                  have h4 : headIs '"' ('[' :: (dumpsElems (x :: t) ++ ']' :: rest)) = false := by
                    simp [headIs]
                  have h5 : headIs '[' ('[' :: (dumpsElems (x :: t) ++ ']' :: rest)) = true := by
                    simp [headIs]
                  have h6 : headIs ']' (dumpsElems (x :: t) ++ ']' :: rest) = false := by
                    obtain ⟨A, hA⟩ := dumpsElems_cons_eq x t
                    rw [hA, List.append_assoc]
                    exact (headIs_closer_dumps_append x _).1
                  simp only [h1, h2, h3, h4, Bool.false_eq_true, if_false, h5, if_true,
                    List.tail_cons]
                  rw [if_neg (by simp [h6])]
                  have hx : ∀ z ∈ x :: t, ParsesBack z := by
                    intro z hz
                    apply ihN
                    have hlt : sizeOf z < sizeOf (x :: t) := List.sizeOf_lt_of_mem hz
                    have hs : sizeOf (Json.arr (x :: t)) = 1 + sizeOf (x :: t) := by
                      simp
                    omega
                  rw [parseElems_dumps (x :: t) (by simp) hx fuel rest (by omega)]
                  rfl
      | obj kvs =>
          intro fuel rest hfuel hrest
          rw [jsonFuel] at hfuel
          cases fuel with
          | zero => omega
          | succ fuel =>
              rw [parseValue]
              cases kvs with
              | nil =>
                  rw [show jsonDumps (.obj []) = ['\x7b', '\x7d'] from by rw [jsonDumps]]
                  simp only [List.cons_append, List.nil_append]
                  have h1 : (nullToken.isPrefixOf ('\x7b' :: '\x7d' :: rest)) = false := by
                    simp [nullToken, List.isPrefixOf]
                  have h2 : (trueToken.isPrefixOf ('\x7b' :: '\x7d' :: rest)) = false := by
                    simp [trueToken, List.isPrefixOf]
                  have h3 : (falseToken.isPrefixOf ('\x7b' :: '\x7d' :: rest)) = false := by
                    simp [falseToken, List.isPrefixOf]
                  have h4 : headIs '"' ('\x7b' :: '\x7d' :: rest) = false := by simp [headIs]
                  have h5 : headIs '[' ('\x7b' :: '\x7d' :: rest) = false := by simp [headIs]
                  have h6 : headIs '\x7b' ('\x7b' :: '\x7d' :: rest) = true := by simp [headIs]
                  have h7 : headIs '\x7d' ('\x7d' :: rest) = true := by simp [headIs]
                  simp only [h1, h2, h3, h4, h5, Bool.false_eq_true, if_false, h6, if_true,
                    List.tail_cons]
                  rw [if_pos h7]
              | cons kv t =>
                  rw [show jsonDumps (.obj (kv :: t)) =
                      ('\x7b' :: dumpsMembers (kv :: t)) ++ ['\x7d'] from by rw [jsonDumps]]
                  simp only [List.cons_append, List.append_assoc, List.nil_append]
                  have h1 : (nullToken.isPrefixOf
                      ('\x7b' :: (dumpsMembers (kv :: t) ++ '\x7d' :: rest))) = false := by
                    rw [show nullToken = 'n' :: ('u' :: 'l' :: 'l' :: []) from rfl]
                    exact isPrefixOf_false_of_head_ne _ _ (by decide)
                  have h2 : (trueToken.isPrefixOf
                      ('\x7b' :: (dumpsMembers (kv :: t) ++ '\x7d' :: rest))) = false := by
                    rw [show trueToken = 't' :: ('r' :: 'u' :: 'e' :: []) from rfl]
                    exact isPrefixOf_false_of_head_ne _ _ (by decide)
                  have h3 : (falseToken.isPrefixOf
                      ('\x7b' :: (dumpsMembers (kv :: t) ++ '\x7d' :: rest))) = false := by
                    rw [show falseToken = 'f' :: ('a' :: 'l' :: 's' :: 'e' :: []) from rfl]
                    exact isPrefixOf_false_of_head_ne _ _ (by decide)
                  have h4 : headIs '"' ('\x7b' :: (dumpsMembers (kv :: t) ++ '\x7d' :: rest)) = false := by
                    simp [headIs]
                  have h5 : headIs '[' ('\x7b' :: (dumpsMembers (kv :: t) ++ '\x7d' :: rest)) = false := by
                    simp [headIs]
                  have h6 : headIs '\x7b' ('\x7b' :: (dumpsMembers (kv :: t) ++ '\x7d' :: rest)) = true := by
                    simp [headIs]
                  have h7 : headIs '\x7d' (dumpsMembers (kv :: t) ++ '\x7d' :: rest) = false := by
                    obtain ⟨A, hA⟩ := dumpsMembers_head kv t
                    rw [hA, List.cons_append]
                    exact headIs_false_of_ne _ (by decide)
                  simp only [h1, h2, h3, h4, h5, Bool.false_eq_true, if_false, h6, if_true,
                    List.tail_cons]
                  rw [if_neg (by simp [h7])]
                  have hkv : ∀ z ∈ kv :: t, ParsesBack z.2 := by
                    intro z hz
                    obtain ⟨k2, v2⟩ := z
                    apply ihN
                    have hlt : sizeOf (k2, v2) < sizeOf (kv :: t) := List.sizeOf_lt_of_mem hz
                    have hps : sizeOf (k2, v2) = 1 + sizeOf k2 + sizeOf v2 := by simp
                    have hs : sizeOf (Json.obj (kv :: t)) = 1 + sizeOf (kv :: t) := by simp
                    have hk2 : 0 < sizeOf k2 := by
                      cases k2 <;> simp
                    simp only []
                    omega
                  rw [parseMembers_dumps (kv :: t) (by simp) hkv fuel rest (by omega)]
                  rfl

theorem jsonDumps_length_pos (v : Json) : 1 ≤ (jsonDumps v).length := by
  obtain ⟨d, t, hd, _, _⟩ := jsonDumps_head_cons v
  rw [hd]
  simp

theorem jsonFuelElems_le_length (xs : List Json)
    (h : ∀ x ∈ xs, jsonFuel x ≤ (jsonDumps x).length) :
    jsonFuelElems xs ≤ (dumpsElems xs).length + 1 := by
  induction xs with
  | nil =>
      rw [jsonFuelElems]
      omega
  | cons x t ih =>
      have hx := h x (List.mem_cons_self x t)
      cases t with
      | nil =>
          rw [jsonFuelElems, jsonFuelElems]
          rw [show dumpsElems [x] = jsonDumps x from by rw [dumpsElems]]
          omega
      | cons y r =>
          rw [jsonFuelElems]
          rw [show dumpsElems (x :: y :: r) =
              jsonDumps x ++ ',' :: ' ' :: dumpsElems (y :: r) from by rw [dumpsElems]]
          have ht := ih (fun z hz => h z (List.mem_cons_of_mem x hz))
          simp only [List.length_append, List.length_cons]
          omega

theorem jsonFuelMembers_le_length (kvs : List (List Char × Json))
    (h : ∀ kv ∈ kvs, jsonFuel kv.2 ≤ (jsonDumps kv.2).length) :
    jsonFuelMembers kvs ≤ (dumpsMembers kvs).length + 1 := by
  induction kvs with
  | nil =>
      rw [jsonFuelMembers]
      omega
  | cons kv t ih =>
      obtain ⟨k, v⟩ := kv
      have hv := h (k, v) (List.mem_cons_self _ t)
      cases t with
      | nil =>
          rw [jsonFuelMembers, jsonFuelMembers]
          rw [show dumpsMembers [(k, v)] =
              '"' :: escapeString k ++ '"' :: ':' :: ' ' :: jsonDumps v from by
            rw [dumpsMembers]]
          simp only at hv
          simp only [List.length_append, List.length_cons]
          omega
      | cons m r =>
          rw [jsonFuelMembers]
          rw [show dumpsMembers ((k, v) :: m :: r) =
              ('"' :: escapeString k ++ '"' :: ':' :: ' ' :: jsonDumps v) ++
                ',' :: ' ' :: dumpsMembers (m :: r) from by rw [dumpsMembers]]
          have ht := ih (fun z hz => h z (List.mem_cons_of_mem (k, v) hz))
          simp only at hv
          simp only [List.length_append, List.length_cons]
          omega

theorem jsonFuel_le_dumps :
    ∀ (N : Nat) (v : Json), sizeOf v ≤ N → jsonFuel v ≤ (jsonDumps v).length := by
  intro N
  induction N with
  | zero =>
      intro v h
      exfalso
      cases v <;> simp at h
  | succ N ihN =>
      intro v hN
      cases v with
      | null =>
          rw [jsonFuel_null]
          exact jsonDumps_length_pos _
      | bool b =>
          rw [jsonFuel_bool]
          exact jsonDumps_length_pos _
      | int n =>
          rw [jsonFuel_int]
          exact jsonDumps_length_pos _
      | str s =>
          rw [jsonFuel_str]
          exact jsonDumps_length_pos _
      | arr xs =>
          rw [jsonFuel]
          cases xs with
          | nil =>
              rw [jsonFuelElems]
              rw [show jsonDumps (.arr []) = ['[', ']'] from by rw [jsonDumps]]
              simp
          | cons x t =>
              have hx : ∀ z ∈ x :: t, jsonFuel z ≤ (jsonDumps z).length := by
                intro z hz
                apply ihN
                have hlt : sizeOf z < sizeOf (x :: t) := List.sizeOf_lt_of_mem hz
                have hs : sizeOf (Json.arr (x :: t)) = 1 + sizeOf (x :: t) := by simp
                omega
              have he := jsonFuelElems_le_length (x :: t) hx
              rw [show jsonDumps (.arr (x :: t)) =
                  ('[' :: dumpsElems (x :: t)) ++ [']'] from by rw [jsonDumps]]
              simp only [List.length_append, List.length_cons]
              omega
      | obj kvs =>
          rw [jsonFuel]
          cases kvs with
          | nil =>
              rw [jsonFuelMembers]
              rw [show jsonDumps (.obj []) = ['\x7b', '\x7d'] from by rw [jsonDumps]]
              simp
          | cons kv t =>
              have hkv : ∀ z ∈ kv :: t, jsonFuel z.2 ≤ (jsonDumps z.2).length := by
                intro z hz
                obtain ⟨k2, v2⟩ := z
                apply ihN
                have hlt : sizeOf (k2, v2) < sizeOf (kv :: t) := List.sizeOf_lt_of_mem hz
                have hps : sizeOf (k2, v2) = 1 + sizeOf k2 + sizeOf v2 := by simp
                have hs : sizeOf (Json.obj (kv :: t)) = 1 + sizeOf (kv :: t) := by simp
                have hk2 : 0 < sizeOf k2 := by cases k2 <;> simp
                simp only []
                omega
              have hm := jsonFuelMembers_le_length (kv :: t) hkv
              rw [show jsonDumps (.obj (kv :: t)) =
                  ('\x7b' :: dumpsMembers (kv :: t)) ++ ['\x7d'] from by rw [jsonDumps]]
              simp only [List.length_append, List.length_cons]
              omega

theorem jsonLoads_jsonDumps (v : Json) : jsonLoads (jsonDumps v) = some v := by
  unfold jsonLoads
  have hp := parseValue_dumps (sizeOf v) v le_rfl ((jsonDumps v).length + 1) []
    (by have := jsonFuel_le_dumps (sizeOf v) v le_rfl; omega) rfl
  rw [List.append_nil] at hp
  rw [hp]

/-- C8: `serialize_json_container` returns None (an empty CSV cell) for the
empty list and the empty dict, and returns the JSON encoding for every
non-empty list or dict. -/
theorem C8_serialize_empty_vs_nonempty :
    serialize_json_container (.list []) = none ∧
    serialize_json_container (.dict []) = none ∧
    (∀ (x : Json) (xs : List Json),
      serialize_json_container (.list (x :: xs)) = some (jsonDumps (.arr (x :: xs)))) ∧
    (∀ (kv : List Char × Json) (kvs : List (List Char × Json)),
      serialize_json_container (.dict (kv :: kvs)) = some (jsonDumps (.obj (kv :: kvs)))) := by
  refine ⟨rfl, rfl, fun x xs => rfl, fun kv kvs => rfl⟩

/-- C7 counterexample: the empty code-unit list does not round-trip:
serializing it yields the empty cell (None), and deserializing the empty
cell returns the default None, not the empty list. -/
theorem C7_counterexample :
    deserialize_json_container (serialize_json_container (.list [])) none = none ∧
    ¬ (deserialize_json_container (serialize_json_container (.list [])) none =
        some (Json.arr [])) :=
  ⟨rfl, fun h => Option.noConfusion h⟩

/-- C7 amended: for every non-empty code-unit list, deserializing the
serialization reproduces the list exactly (the model even preserves
dictionary key order); the empty list serializes to an empty cell, which
deserializes to the default None rather than to the empty list. -/
theorem C7_amended_roundtrip :
    (∀ (x : Json) (xs : List Json),
      deserialize_json_container (serialize_json_container (.list (x :: xs))) none =
        some (Json.arr (x :: xs))) ∧
    deserialize_json_container (serialize_json_container (.list [])) none = none := by
  refine ⟨?_, rfl⟩
  intro x xs
  show jsonLoads (jsonDumps (Json.arr (x :: xs))) = some (Json.arr (x :: xs))
  exact jsonLoads_jsonDumps (Json.arr (x :: xs))

end VulnScripts
